import Mathlib

/-!
Shallow embedding of `src/io.rs` from the `arraydeque` repository: a
`std::io::BufReader` replacement driven by a fixed-capacity ring buffer
(`ArrayDeque<A, Saturating>`).  The adapter code (`Guard`, `try_fill_buf`,
`fill_buf`, `read`, `consume`) is translated from the source file; the ring
buffer itself is not under `src/` and is modelled from the collaborator
contract of the specification (length, capacity, is_full, as_slices,
as_mut_slices, set_len, drain).
-/

namespace Arraydeque

/-- Bytes are modelled as natural numbers. -/
abbrev Byte := Nat

/-- Modelled from the spec: the bounded circular buffer (`ArrayDeque` with
`Saturating` behavior), an external collaborator whose implementation is not
under `src/`.  `storage` is the physical backing array (invariantly of length
`cap`), `head` is the physical index of the first logical byte, and `len` is
the occupied logical length. -/
structure Deque where
  cap : Nat
  storage : List Byte
  head : Nat
  len : Nat
deriving DecidableEq

/-- Well-formedness of a deque state: the backing storage has exactly `cap`
cells, the occupied length never exceeds the capacity, and the head index is
in range (`head = 0` covers the capacity-zero deque). -/
def Deque.WF (d : Deque) : Prop :=
  d.storage.length = d.cap ∧ d.len ≤ d.cap ∧ (d.head < d.cap ∨ d.head = 0)

instance (d : Deque) : Decidable d.WF := by
  unfold Deque.WF; infer_instance

/-- Modelled from the spec: the O(1) `is_full` query (`len == capacity` for
the saturating deque). -/
def Deque.isFull (d : Deque) : Bool := d.len == d.cap

/-- Modelled from the spec: the O(1) `is_empty` query. -/
def Deque.isEmpty (d : Deque) : Bool := d.len == 0

/-- Modelled from the spec: `as_slices` returns the occupied region as an
ordered pair of contiguous slices (the second possibly empty), reflecting
wrap-around; their concatenation in order is the occupied content
oldest-to-newest.  `as_mut_slices` has the same geometry. -/
def Deque.asSlices (d : Deque) : List Byte × List Byte :=
  ((d.storage.drop d.head).take d.len, d.storage.take (d.len - (d.cap - d.head)))

/-- The logical content of the deque, oldest to newest: the concatenation of
the two exposed slices. -/
def Deque.content (d : Deque) : List Byte := d.asSlices.1 ++ d.asSlices.2

/-- The physical storage rotated so that logical position 0 comes first.
The occupied content is `rot.take len`; the free region, in logical order,
is `rot.drop len`. -/
def Deque.rot (d : Deque) : List Byte :=
  d.storage.drop d.head ++ d.storage.take d.head

/-- Modelled from the spec: `drain(0..n)` removes and discards the first `n`
logical bytes, shifting the remaining content's logical start forward.
Precondition (caller contract): `n ≤ len`. -/
def Deque.drain (d : Deque) (n : Nat) : Deque :=
  { d with head := (d.head + n) % d.cap, len := d.len - n }

/-- One interaction step offered by the underlying reader: either a chunk of
bytes it is prepared to deliver (a partial read hands out a prefix and keeps
the rest), or an I/O error.  Per the `std::io::Read` contract, a call that
returns an error transfers no bytes; a source that transfers `k` bytes and
then hits an error reports `Ok(k)` and surfaces the error on the next call. -/
inductive Event where
  | chunk : List Byte → Event
  | ioerr : Nat → Event
deriving DecidableEq

/-- Semantics of `R::read_vectored` over free regions of total size `room`:
deliver up to `room` bytes from the source's next chunk (keeping any
remainder for later calls), report end-of-source as zero bytes, or fail with
the next error.  Returns the delivered bytes and the new reader state. -/
def srcRead : List Event → Nat → Except Nat (List Byte) × List Event
  | [], _ => (Except.ok [], [])
  | Event.chunk bs :: rest, room =>
      (Except.ok (bs.take room),
       if bs.length ≤ room then rest else Event.chunk (bs.drop room) :: rest)
  | Event.ioerr e :: rest, _ => (Except.error e, rest)

/-- The adapter: `BufReader { inner, buf }` from the source.  The underlying
reader `inner` is represented by its remaining event list. -/
structure BufReader where
  src : List Event
  buf : Deque
deriving DecidableEq

/-- Constructor `BufReader::new`: wraps a reader with a fresh (empty) deque of capacity
`cap`. -/
def BufReader.new (cap : Nat) (src : List Event) : BufReader :=
  { src := src
    buf := { cap := cap, storage := List.replicate cap 0, head := 0, len := 0 } }

/-- Overwrite `s.length - pos`-bounded cells of `s` starting at physical
position `pos` with `bs` (used only when `pos + bs.length ≤ s.length`): the
effect of writing through a mutable sub-slice. -/
def writeAt (s : List Byte) (pos : Nat) (bs : List Byte) : List Byte :=
  s.take pos ++ bs ++ s.drop (pos + bs.length)

/-- Writing the delivered bytes through the two `IoSliceMut` regions of
`try_fill_buf`: the first `cap1` bytes go into the region starting at
physical position `pos1`, the remainder into the region starting at `pos2`
(a vectored read fills the buffers in order). -/
def writeAt2 (s : List Byte) (pos1 cap1 pos2 : Nat) (bs : List Byte) : List Byte :=
  writeAt (writeAt s pos1 (bs.take cap1)) pos2 (bs.drop cap1)

/-- The offset computation of `try_fill_buf` (source lines 93–99): given the
lengths of the two slices exposed at full capacity and the previously
occupied length `empty_pos`, the sub-offsets into the two slices at which
the genuinely free memory starts. -/
def advances (l1 l2 e : Nat) : Nat × Nat :=
  if e < l1 then (e, 0)
  else if e - l1 < l2 then (l1, e - l1)
  else (l1, l2)

/-- The slices exposed by `as_mut_slices` after the guard's provisional
`set_len(capacity)` in `try_fill_buf` (source lines 87–92). -/
def extSlices (d : Deque) : List Byte × List Byte :=
  Deque.asSlices { d with len := d.cap }

/-- The `(advance1, advance2)` pair computed by `try_fill_buf` (source
lines 93–99), with `empty_pos = d.len` recorded before the extension. -/
def fillAdv (d : Deque) : Nat × Nat :=
  advances (extSlices d).1.length (extSlices d).2.length d.len

/-- Total writable space of the two `IoSliceMut` sub-regions
`bufs.0[advance1..]` and `bufs.1[advance2..]` passed to `read_vectored`
(source line 101). -/
def fillRoom (d : Deque) : Nat :=
  ((extSlices d).1.length - (fillAdv d).1) + ((extSlices d).2.length - (fillAdv d).2)

/-- The physical storage after `read_vectored` wrote `bs` through the two
sub-regions: `bufs.0[advance1..]` starts at physical index
`head + advance1`, `bufs.1[advance2..]` at physical index `advance2`. -/
def fillStorage (d : Deque) (bs : List Byte) : List Byte :=
  writeAt2 d.storage (d.head + (fillAdv d).1)
    ((extSlices d).1.length - (fillAdv d).1) (fillAdv d).2 bs

/-- Function `BufReader::try_fill_buf` (source lines 80–107), translated statement by
statement.  If the deque is full, return `Ok(0)`.  Otherwise record
`empty_pos = len`, provisionally extend the length to capacity (the
`Guard`'s scope), take the two exposed slices, compute the advances, issue
one vectored read over the two free sub-regions, and commit length
`empty_pos + bytes` on success; on error the guard's drop restores
`empty_pos` (the erroring call transferred no bytes, so the deque is
untouched) and the error propagates. -/
def tryFillBuf (r : BufReader) : Except Nat Nat × BufReader :=
  if r.buf.isFull then (Except.ok 0, r)
  else
    match srcRead r.src (fillRoom r.buf) with
    | (Except.error e, src') => (Except.error e, { r with src := src' })
    | (Except.ok bs, src') =>
        (Except.ok bs.length,
         { src := src'
           buf := { cap := r.buf.cap
                    storage := fillStorage r.buf bs
                    head := r.buf.head
                    len := r.buf.len + bs.length } })

/-- Function `BufRead::fill_buf` (source lines 120–126): if the deque is empty,
attempt one `try_fill_buf`, propagating its error; then return the front
contiguous slice. -/
def fillBuf (r : BufReader) : Except Nat (List Byte) × BufReader :=
  if r.buf.isEmpty then
    match tryFillBuf r with
    | (Except.error e, r') => (Except.error e, r')
    | (Except.ok _, r') => (Except.ok r'.buf.asSlices.1, r')
  else (Except.ok r.buf.asSlices.1, r)

/-- Function `BufRead::consume` (source lines 128–130): `self.buf.drain(0..amt)`. -/
def consume (r : BufReader) (amt : Nat) : BufReader :=
  { r with buf := r.buf.drain amt }

/-- Function `Read::read` (source lines 111–116): `fill_buf`, copy from the returned
front slice into a destination of size `dstLen` (a slice's own `read` copies
`min` of the two lengths and cannot fail), `consume` the copied count.  The
returned value carries the copied bytes; the count is their length. -/
def bread (r : BufReader) (dstLen : Nat) : Except Nat (List Byte) × BufReader :=
  match fillBuf r with
  | (Except.error e, r') => (Except.error e, r')
  | (Except.ok ibuf, r') =>
      (Except.ok (ibuf.take dstLen), consume r' (min ibuf.length dstLen))

/-- Iterate `try_fill_buf` `n` times, keeping only the final state. -/
def fillIter : Nat → BufReader → BufReader
  | 0, r => r
  | n + 1, r => fillIter n (tryFillBuf r).2

/-- Drive the adapter with `read` calls of caller-chosen destination sizes
`sizes 0, sizes 1, …` until a read reports zero bytes (or an error, or fuel
runs out), collecting all bytes read. -/
def readAll (sizes : Nat → Nat) : Nat → Nat → BufReader → List Byte × BufReader
  | 0, _, r => ([], r)
  | fuel + 1, i, r =>
      match bread r (sizes i) with
      | (Except.error _, r') => ([], r')
      | (Except.ok [], r') => ([], r')
      | (Except.ok (b :: bs), r') =>
          let res := readAll sizes fuel (i + 1) r'
          (b :: bs ++ res.1, res.2)

/-- A well-behaved source: only nonempty chunks, no errors (used for the
round-trip property). -/
def goodSrc : List Event → Bool
  | [] => true
  | Event.chunk bs :: rest => !bs.isEmpty && goodSrc rest
  | Event.ioerr _ :: _ => false

/-- All bytes a source will ever deliver, in order. -/
def srcFlat : List Event → List Byte
  | [] => []
  | Event.chunk bs :: rest => bs ++ srcFlat rest
  | Event.ioerr _ :: rest => srcFlat rest

/-- The abstract byte stream an adapter state still holds: buffered content
followed by everything the source will still deliver. -/
def absStream (r : BufReader) : List Byte :=
  r.buf.content ++ srcFlat r.src

lemma length_rot (d : Deque) : d.rot.length = d.storage.length := by
  simp [Deque.rot]; omega

lemma content_eq_rot_take (d : Deque) (hWF : d.WF) :
    d.content = d.rot.take d.len := by
  obtain ⟨hs, hlen, hh⟩ := hWF
  simp only [Deque.content, Deque.asSlices, Deque.rot]
  have hd : (d.storage.drop d.head).length = d.cap - d.head := by simp [hs]
  rw [List.take_append_eq_append_take, List.take_take, hd]
  congr 2
  omega

lemma content_length (d : Deque) (hWF : d.WF) :
    d.content.length = d.len := by
  rw [content_eq_rot_take d hWF, List.length_take, length_rot]
  obtain ⟨hs, hlen, _⟩ := hWF
  omega

lemma writeAt_nil (s : List Byte) (p : Nat) : writeAt s p [] = s := by
  simp [writeAt]

lemma extSlices_eq (d : Deque) (hs : d.storage.length = d.cap)
    (hh : d.head ≤ d.cap) :
    extSlices d = (d.storage.drop d.head, d.storage.take d.head) := by
  simp only [extSlices, Deque.asSlices]
  rw [Prod.mk.injEq]
  refine ⟨?_, ?_⟩
  · apply List.take_of_length_le
    simp; omega
  · congr 1
    omega

lemma fillRoom_eq (d : Deque) (hs : d.storage.length = d.cap)
    (hh : d.head ≤ d.cap) (hlen : d.len ≤ d.cap) :
    fillRoom d = d.cap - d.len := by
  simp only [fillRoom, fillAdv, extSlices_eq d hs hh, advances]
  have h1 : (d.storage.drop d.head).length = d.cap - d.head := by simp [hs]
  have h2 : (d.storage.take d.head).length = d.head := by simp [hs]; omega
  rw [h1, h2]
  split_ifs <;> omega

lemma write_core (A T bs : List Byte) :
    bs.take T.length ++ (T.drop (bs.take T.length).length
      ++ (bs.drop T.length ++ A.drop (bs.drop T.length).length))
      = bs ++ (T ++ A).drop bs.length := by
  rcases le_or_lt bs.length T.length with h1 | h1
  · rw [List.take_of_length_le h1, List.drop_eq_nil_of_le h1,
        List.drop_append_eq_append_drop]
    simp [Nat.sub_eq_zero_of_le h1]
  · have hT : (bs.take T.length).length = T.length := by simp; omega
    rw [hT, List.drop_length, List.drop_append_eq_append_drop,
        List.drop_eq_nil_of_le (le_of_lt h1)]
    have hbd : (bs.drop T.length).length = bs.length - T.length := by simp
    rw [hbd]
    simp only [List.nil_append]
    rw [← List.append_assoc, List.take_append_drop]

lemma rotA (s bs : List Byte) (C h e : Nat) (hs : s.length = C) (hh : h < C)
    (hcase : e < C - h) (hbs : bs.length ≤ C - e) :
    (writeAt2 s (h + e) (C - h - e) 0 bs).drop h
      ++ (writeAt2 s (h + e) (C - h - e) 0 bs).take h
      = (s.drop h ++ s.take h).take e ++ bs
        ++ (s.drop h ++ s.take h).drop (e + bs.length) := by
  have hAlen : (s.take h).length = h := by simp; omega
  have hDlen : (s.drop h).length = C - h := by rw [List.length_drop, hs]
  have hTlen : (s.drop (h + e)).length = C - h - e := by
    rw [List.length_drop, hs]; omega
  have hlb1 : (bs.take (C - h - e)).length = min (C - h - e) bs.length := by simp
  have hlb2 : (bs.drop (C - h - e)).length = bs.length - (C - h - e) := by simp
  have hw : writeAt2 s (h + e) (C - h - e) 0 bs
      = (bs.drop (C - h - e) ++ (s.take h).drop (bs.drop (C - h - e)).length)
        ++ ((s.drop h).take e
          ++ (bs.take (C - h - e)
            ++ (s.drop (h + e)).drop (bs.take (C - h - e)).length)) := by
    simp only [writeAt2, writeAt, List.take_zero, List.nil_append, Nat.zero_add,
      zero_add]
    rw [← List.drop_drop, List.take_add]
    simp only [List.append_assoc]
    rw [List.drop_append_of_le_length (by rw [hAlen, hlb2]; omega)]
  rw [hw]
  have hfront : (bs.drop (C - h - e)
      ++ (s.take h).drop (bs.drop (C - h - e)).length).length = h := by
    simp; omega
  rw [List.drop_left' hfront, List.take_left' hfront]
  rw [List.take_append_of_le_length (by rw [hDlen]; omega)]
  rw [List.append_assoc, List.drop_append_eq_append_drop, hDlen]
  simp only [List.append_assoc]
  congr 1
  have hi1 : (s.drop h).drop (e + bs.length) = (s.drop (h + e)).drop bs.length := by
    rw [List.drop_drop, List.drop_drop]
    congr 1
    omega
  have hi2 : e + bs.length - (C - h) = bs.length - (C - h - e) := by omega
  rw [hi1, hi2]
  have hcore := write_core (s.take h) (s.drop (h + e)) bs
  rw [hTlen, List.drop_append_eq_append_drop, hTlen] at hcore
  exact hcore

lemma rotB (s bs : List Byte) (C h e : Nat) (hs : s.length = C) (hh : h < C)
    (hcase : C - h ≤ e) (he : e < C) (hbs : bs.length ≤ C - e) :
    (writeAt s (e - (C - h)) bs).drop h ++ (writeAt s (e - (C - h)) bs).take h
      = (s.drop h ++ s.take h).take e ++ bs
        ++ (s.drop h ++ s.take h).drop (e + bs.length) := by
  have hDlen : (s.drop h).length = C - h := by rw [List.length_drop, hs]
  have hAlen : (s.take h).length = h := by simp; omega
  have ha2 : e - (C - h) < h := by omega
  have hfit : e - (C - h) + bs.length ≤ h := by omega
  have hQlen : ((s.drop (e - (C - h))).take (h - (e - (C - h)))).length
      = h - (e - (C - h)) := by simp [hs]; omega
  have hw : writeAt s (e - (C - h)) bs
      = (s.take (e - (C - h)) ++ (bs
          ++ ((s.drop (e - (C - h))).take (h - (e - (C - h)))).drop bs.length))
        ++ s.drop h := by
    simp only [writeAt]
    rw [← List.drop_drop]
    conv_lhs =>
      rw [← List.take_append_drop (h - (e - (C - h))) (s.drop (e - (C - h)))]
    rw [List.drop_drop]
    have h2 : e - (C - h) + (h - (e - (C - h))) = h := by omega
    rw [h2]
    rw [List.drop_append_of_le_length (by rw [hQlen]; omega)]
    simp only [List.append_assoc]
  rw [hw]
  have hfront : (s.take (e - (C - h)) ++ (bs
      ++ ((s.drop (e - (C - h))).take (h - (e - (C - h)))).drop bs.length)).length
      = h := by
    simp [hs]; omega
  rw [List.drop_left' hfront, List.take_left' hfront]
  rw [List.take_append_eq_append_take, List.take_of_length_le (by omega : (s.drop h).length ≤ e),
    hDlen, List.take_take]
  have hmin : min (e - (C - h)) h = e - (C - h) := by omega
  rw [hmin]
  rw [List.append_assoc, List.drop_append_eq_append_drop, hDlen,
    List.drop_eq_nil_of_le (by rw [hDlen]; omega : (s.drop h).length ≤ e + bs.length)]
  have hi : (s.take h).drop (e + bs.length - (C - h))
      = ((s.drop (e - (C - h))).take (h - (e - (C - h)))).drop bs.length := by
    rw [List.drop_take, List.drop_take, List.drop_drop]
    congr 1
    · omega
    · congr 1
      omega
  rw [hi]
  simp only [List.append_assoc, List.nil_append]

lemma fillAdv_eq (d : Deque) (hs : d.storage.length = d.cap)
    (hh : d.head ≤ d.cap) :
    fillAdv d = advances (d.cap - d.head) d.head d.len := by
  have h1 : (d.storage.drop d.head).length = d.cap - d.head := by
    rw [List.length_drop, hs]
  have h2 : (d.storage.take d.head).length = d.head := by simp [hs]; omega
  simp [fillAdv, extSlices_eq d hs hh, h1, h2]

lemma rot_fill (d : Deque) (hWF : d.WF) (hlt : d.len < d.cap)
    (bs : List Byte) (hbs : bs.length ≤ d.cap - d.len) :
    Deque.rot ⟨d.cap, fillStorage d bs, d.head, d.len + bs.length⟩
      = d.rot.take d.len ++ bs ++ d.rot.drop (d.len + bs.length) := by
  obtain ⟨hs, hlen, hh0⟩ := hWF
  have hh : d.head < d.cap := by rcases hh0 with h' | h' <;> omega
  have hadv := fillAdv_eq d hs (le_of_lt hh)
  simp only [Deque.rot]
  rcases lt_or_ge d.len (d.cap - d.head) with hcase | hcase
  · have hA : fillAdv d = (d.len, 0) := by
      rw [hadv]; unfold advances; rw [if_pos hcase]
    have hfs : fillStorage d bs
        = writeAt2 d.storage (d.head + d.len) (d.cap - d.head - d.len) 0 bs := by
      simp only [fillStorage, hA, extSlices_eq d hs (le_of_lt hh)]
      rw [List.length_drop, hs]
    rw [hfs]
    exact rotA d.storage bs d.cap d.head d.len hs hh hcase hbs
  · have hB : fillAdv d = (d.cap - d.head, d.len - (d.cap - d.head)) := by
      rw [hadv]; unfold advances
      rw [if_neg (by omega), if_pos (by omega)]
    have hfs : fillStorage d bs
        = writeAt d.storage (d.len - (d.cap - d.head)) bs := by
      simp only [fillStorage, hB, extSlices_eq d hs (le_of_lt hh)]
      rw [List.length_drop, hs]
      simp [writeAt2, Nat.sub_self, writeAt_nil]
    rw [hfs]
    exact rotB d.storage bs d.cap d.head d.len hs hh hcase hlt hbs

lemma fill_WF (d : Deque) (hWF : d.WF) (hlt : d.len < d.cap)
    (bs : List Byte) (hbs : bs.length ≤ d.cap - d.len) :
    Deque.WF ⟨d.cap, fillStorage d bs, d.head, d.len + bs.length⟩ := by
  have hrot := rot_fill d hWF hlt bs hbs
  have hrl : (Deque.rot ⟨d.cap, fillStorage d bs, d.head, d.len + bs.length⟩).length
      = d.cap := by
    rw [hrot]
    simp [List.length_take, List.length_drop, length_rot, hWF.1]
    omega
  have hsl : (fillStorage d bs).length = d.cap := by
    have h2 := length_rot ⟨d.cap, fillStorage d bs, d.head, d.len + bs.length⟩
    rw [hrl] at h2
    exact h2.symm
  exact ⟨hsl, by show d.len + bs.length ≤ d.cap; omega, hWF.2.2⟩

lemma fill_content (d : Deque) (hWF : d.WF) (hlt : d.len < d.cap)
    (bs : List Byte) (hbs : bs.length ≤ d.cap - d.len) :
    Deque.content ⟨d.cap, fillStorage d bs, d.head, d.len + bs.length⟩
      = d.content ++ bs := by
  have hrot := rot_fill d hWF hlt bs hbs
  rw [content_eq_rot_take _ (fill_WF d hWF hlt bs hbs), hrot,
    content_eq_rot_take d hWF]
  exact List.take_left' (by simp [List.length_take, length_rot, hWF.1]; omega)

lemma srcRead_ok_le {src : List Event} {room : Nat} {bs : List Byte}
    {src' : List Event} (h : srcRead src room = (Except.ok bs, src')) :
    bs.length ≤ room := by
  match src with
  | [] =>
      simp [srcRead] at h
      rw [h.1]
      simp
  | Event.chunk c :: rest =>
      simp [srcRead] at h
      rw [← h.1]
      simp
  | Event.ioerr e :: rest =>
      simp [srcRead] at h

lemma srcRead_ok_flat {src : List Event} {room : Nat} {bs : List Byte}
    {src' : List Event} (h : srcRead src room = (Except.ok bs, src')) :
    bs ++ srcFlat src' = srcFlat src := by
  match src with
  | [] =>
      simp [srcRead] at h
      rw [h.1, h.2]
      rfl
  | Event.chunk c :: rest =>
      simp [srcRead] at h
      rw [← h.1, ← h.2]
      by_cases hif : c.length ≤ room
      · simp [hif, srcFlat, List.take_of_length_le hif]
      · simp [hif, srcFlat]
        rw [← List.append_assoc, List.take_append_drop]
  | Event.ioerr e :: rest =>
      simp [srcRead] at h

lemma srcRead_ok_good {src : List Event} {room : Nat} {bs : List Byte}
    {src' : List Event} (hg : goodSrc src = true)
    (h : srcRead src room = (Except.ok bs, src')) :
    goodSrc src' = true := by
  match src with
  | [] =>
      simp [srcRead] at h
      rw [h.2]
      rfl
  | Event.chunk c :: rest =>
      simp [srcRead] at h
      simp [goodSrc] at hg
      rw [← h.2]
      by_cases hif : c.length ≤ room
      · simp [hif, hg.2]
      · simp [hif, goodSrc, hg.2]
  | Event.ioerr e :: rest =>
      simp [srcRead] at h

lemma srcRead_good_ok {src : List Event} (hg : goodSrc src = true) (room : Nat) :
    ∃ bs src', srcRead src room = (Except.ok bs, src') := by
  match src with
  | [] => exact ⟨[], [], rfl⟩
  | Event.chunk c :: rest => exact ⟨_, _, rfl⟩
  | Event.ioerr e :: rest => simp [goodSrc] at hg

lemma srcRead_ok_ne_nil {src : List Event} {room : Nat} {bs : List Byte}
    {src' : List Event} (hg : goodSrc src = true) (hsrc : src ≠ [])
    (hroom : 1 ≤ room) (h : srcRead src room = (Except.ok bs, src')) :
    bs ≠ [] := by
  match src with
  | [] => exact absurd rfl hsrc
  | Event.chunk c :: rest =>
      simp [srcRead] at h
      simp [goodSrc] at hg
      rw [← h.1]
      have hc : 0 < c.length := List.length_pos.mpr hg.1
      apply List.length_pos.mp
      simp
      omega
  | Event.ioerr e :: rest =>
      simp [goodSrc] at hg

lemma tryFillBuf_full (r : BufReader) (h : r.buf.len = r.buf.cap) :
    tryFillBuf r = (Except.ok 0, r) := by
  simp [tryFillBuf, Deque.isFull, h]

lemma tryFillBuf_not_full_aux (r : BufReader) (h : r.buf.len ≠ r.buf.cap) :
    tryFillBuf r
      = match srcRead r.src (fillRoom r.buf) with
        | (Except.error e, src') => (Except.error e, { r with src := src' })
        | (Except.ok bs, src') =>
            (Except.ok bs.length,
             { src := src'
               buf := ⟨r.buf.cap, fillStorage r.buf bs, r.buf.head,
                       r.buf.len + bs.length⟩ }) := by
  simp [tryFillBuf, Deque.isFull, h]

lemma fillRoom_of_WF (d : Deque) (hWF : d.WF) : fillRoom d = d.cap - d.len := by
  apply fillRoom_eq d hWF.1 ?_ hWF.2.1
  rcases hWF.2.2 with h' | h' <;> omega

lemma tryFillBuf_err {r : BufReader} {e : Nat} {r' : BufReader}
    (h : tryFillBuf r = (Except.error e, r')) :
    r'.buf = r.buf ∧ srcRead r.src (fillRoom r.buf) = (Except.error e, r'.src) := by
  by_cases hf : r.buf.len = r.buf.cap
  · rw [tryFillBuf_full r hf] at h
    exact absurd h (by simp)
  · rw [tryFillBuf_not_full_aux r hf] at h
    rcases hsr : srcRead r.src (fillRoom r.buf) with ⟨res, src'⟩
    rw [hsr] at h
    cases res with
    | error e2 =>
        simp only [Prod.mk.injEq, Except.error.injEq] at h
        obtain ⟨he, hr⟩ := h
        subst he
        subst hr
        exact ⟨rfl, rfl⟩
    | ok bs =>
        simp at h

lemma tryFillBuf_ok_eq {r : BufReader} (hWF : r.buf.WF)
    (hf : r.buf.len ≠ r.buf.cap) {bs : List Byte} {src' : List Event}
    (hread : srcRead r.src (r.buf.cap - r.buf.len) = (Except.ok bs, src')) :
    tryFillBuf r = (Except.ok bs.length,
      { src := src'
        buf := ⟨r.buf.cap, fillStorage r.buf bs, r.buf.head,
                r.buf.len + bs.length⟩ }) := by
  rw [tryFillBuf_not_full_aux r hf, fillRoom_of_WF r.buf hWF, hread]

lemma tryFillBuf_ok_spec {r : BufReader} (hWF : r.buf.WF)
    (hf : r.buf.len ≠ r.buf.cap) {n : Nat} {r' : BufReader}
    (h : tryFillBuf r = (Except.ok n, r')) :
    ∃ bs, srcRead r.src (r.buf.cap - r.buf.len) = (Except.ok bs, r'.src)
      ∧ n = bs.length
      ∧ r'.buf.cap = r.buf.cap ∧ r'.buf.head = r.buf.head
      ∧ r'.buf.len = r.buf.len + n
      ∧ r'.buf.content = r.buf.content ++ bs
      ∧ r'.buf.WF := by
  obtain ⟨bs, src', hsr⟩ :
      ∃ bs src', srcRead r.src (r.buf.cap - r.buf.len) = (Except.ok bs, src') := by
    rcases hres : srcRead r.src (r.buf.cap - r.buf.len) with ⟨res, s'⟩
    cases res with
    | ok bs => exact ⟨bs, s', rfl⟩
    | error e2 =>
        have haux := tryFillBuf_not_full_aux r hf
        rw [fillRoom_of_WF r.buf hWF, hres] at haux
        rw [haux] at h
        simp at h
  have heq := tryFillBuf_ok_eq hWF hf hsr
  rw [heq] at h
  simp only [Prod.mk.injEq, Except.ok.injEq] at h
  obtain ⟨hn, hr⟩ := h
  have hlt : r.buf.len < r.buf.cap := lt_of_le_of_ne hWF.2.1 hf
  have hbs : bs.length ≤ r.buf.cap - r.buf.len := srcRead_ok_le hsr
  refine ⟨bs, ?_, hn.symm, ?_, ?_, ?_, ?_, ?_⟩
  · rw [← hr]; exact hsr
  · rw [← hr]
  · rw [← hr]
  · rw [← hr, hn]
  · rw [← hr]
    exact fill_content r.buf hWF hlt bs hbs
  · rw [← hr]
    exact fill_WF r.buf hWF hlt bs hbs

lemma rot_eq_rotate (d : Deque) (hh : d.head ≤ d.storage.length) :
    d.rot = d.storage.rotate d.head :=
  (List.rotate_eq_drop_append_take hh).symm

lemma drain_WF (d : Deque) (hWF : d.WF) (n : Nat) (hn : n ≤ d.len) :
    (d.drain n).WF := by
  obtain ⟨hs, hlen, hh0⟩ := hWF
  refine ⟨hs, by show d.len - n ≤ d.cap; omega, ?_⟩
  show (d.head + n) % d.cap < d.cap ∨ (d.head + n) % d.cap = 0
  rcases Nat.eq_zero_or_pos d.cap with hc | hc
  · right
    have hh : d.head = 0 := by rcases hh0 with h' | h' <;> omega
    have hn0 : n = 0 := by omega
    simp [hh, hn0, hc]
  · exact Or.inl (Nat.mod_lt _ hc)

lemma drain_content (d : Deque) (hWF : d.WF) (n : Nat) (hn : n ≤ d.len) :
    (d.drain n).content = d.content.drop n := by
  obtain ⟨hs, hlen, hh0⟩ := hWF
  have hh : d.head ≤ d.cap := by rcases hh0 with h' | h' <;> omega
  have hrot : (d.drain n).rot = d.rot.rotate n := by
    rw [rot_eq_rotate d (by omega), rot_eq_rotate (d.drain n) ?_, List.rotate_rotate]
    · show d.storage.rotate ((d.head + n) % d.cap) = _
      rw [← hs, List.rotate_mod]
    · show (d.head + n) % d.cap ≤ d.storage.length
      rcases Nat.eq_zero_or_pos d.cap with hc | hc
      · have : d.head = 0 := by rcases hh0 with h' | h' <;> omega
        have hn0 : n = 0 := by omega
        simp [this, hn0, hc, hs]
      · have := Nat.mod_lt (d.head + n) hc
        omega
  rw [content_eq_rot_take _ (drain_WF d ⟨hs, hlen, hh0⟩ n hn), hrot,
    content_eq_rot_take d ⟨hs, hlen, hh0⟩]
  show (d.rot.rotate n).take (d.len - n) = (d.rot.take d.len).drop n
  rw [List.rotate_eq_drop_append_take (by rw [length_rot, hs]; omega),
    List.take_append_of_le_length (by rw [List.length_drop, length_rot, hs]; omega),
    List.drop_take]

lemma asSlices_fst_take (d : Deque) :
    d.asSlices.1 = d.content.take d.asSlices.1.length := by
  rw [Deque.content]
  exact (List.take_left ..).symm

lemma asSlices_fst_length (d : Deque) (hWF : d.WF) :
    d.asSlices.1.length = min d.len (d.cap - d.head) := by
  simp [Deque.asSlices, hWF.1]

lemma asSlices_fst_ne_nil (d : Deque) (hWF : d.WF) (h : d.len ≠ 0) :
    d.asSlices.1 ≠ [] := by
  apply List.length_pos.mp
  rw [asSlices_fst_length d hWF]
  obtain ⟨hs, hlen, hh0⟩ := hWF
  rcases hh0 with h' | h' <;> omega

lemma fillBuf_nonempty (r : BufReader) (h : r.buf.len ≠ 0) :
    fillBuf r = (Except.ok r.buf.asSlices.1, r) := by
  simp [fillBuf, Deque.isEmpty, h]

lemma fillBuf_empty (r : BufReader) (h : r.buf.len = 0) :
    fillBuf r
      = match tryFillBuf r with
        | (Except.error e, r') => (Except.error e, r')
        | (Except.ok _, r') => (Except.ok r'.buf.asSlices.1, r') := by
  simp [fillBuf, Deque.isEmpty, h]

lemma fillBuf_ok_spec {r : BufReader} {v : List Byte} {r' : BufReader}
    (hWF : r.buf.WF) (h : fillBuf r = (Except.ok v, r')) :
    v = r'.buf.asSlices.1 ∧ r'.buf.WF ∧ (r.buf.len ≠ 0 → r' = r)
      ∧ absStream r' = absStream r
      ∧ (goodSrc r.src = true → goodSrc r'.src = true) := by
  by_cases hz : r.buf.len = 0
  · rw [fillBuf_empty r hz] at h
    rcases htf : tryFillBuf r with ⟨res, r''⟩
    rw [htf] at h
    cases res with
    | error e => simp at h
    | ok n =>
        simp only [Prod.mk.injEq, Except.ok.injEq] at h
        obtain ⟨hv, hr⟩ := h
        subst hr
        by_cases hfc : r.buf.len = r.buf.cap
        · rw [tryFillBuf_full r hfc] at htf
          simp only [Prod.mk.injEq, Except.ok.injEq] at htf
          rw [← htf.2] at hv ⊢
          exact ⟨hv.symm, hWF, fun hn => rfl, rfl, fun hg => hg⟩
        · obtain ⟨bs, hsr, _, _, _, _, hcontent, hWF'⟩ :=
            tryFillBuf_ok_spec hWF hfc htf
          refine ⟨hv.symm, hWF', fun hn => absurd hz hn, ?_, ?_⟩
          · show r''.buf.content ++ srcFlat r''.src = r.buf.content ++ srcFlat r.src
            rw [hcontent, List.append_assoc, srcRead_ok_flat hsr]
          · exact fun hg => srcRead_ok_good hg hsr
  · rw [fillBuf_nonempty r hz] at h
    simp only [Prod.mk.injEq, Except.ok.injEq] at h
    obtain ⟨hv, hr⟩ := h
    subst hr
    exact ⟨hv.symm, hWF, fun _ => rfl, rfl, fun hg => hg⟩

/-- A concrete adapter state with a full buffer (capacity 2, two bytes
buffered) and a source that still has data. -/
def exFull : BufReader := ⟨[Event.chunk [1]], ⟨2, [5, 6], 0, 2⟩⟩

/-- A concrete adapter state whose next source interaction fails
(buffer wrapped: capacity 4, head 2, one byte buffered). -/
def exErr : BufReader := ⟨[Event.ioerr 42], ⟨4, [10, 11, 12, 13], 2, 1⟩⟩

/-- The state `exErr` reaches after its failing fill: the source consumed
its error event, the deque untouched. -/
def exErrPost : BufReader := ⟨[], ⟨4, [10, 11, 12, 13], 2, 1⟩⟩

/-- A concrete wrapped adapter state about to fill across the physical end
of storage: capacity 4, head 2, one byte buffered, three free. -/
def exWrap : BufReader := ⟨[Event.chunk [7, 8, 9]], ⟨4, [10, 11, 12, 13], 2, 1⟩⟩

/-- The state `exWrap` reaches after one successful fill: bytes 7,8,9 placed
across the wrap-around point. -/
def exWrapPost : BufReader := ⟨[], ⟨4, [8, 9, 12, 7], 2, 4⟩⟩

/-- A concrete wrapped adapter state used for the consume witness: content
is 12, 13, 10. -/
def exDrain : BufReader := ⟨[Event.chunk [1]], ⟨4, [10, 11, 12, 13], 2, 3⟩⟩

/-- Claim C2: for every non-full adapter state, if `try_fill_buf` returns
`Ok(n)` then the new occupied length is the old occupied length plus `n`,
the previously occupied bytes are unchanged, and the `n` new bytes appear
after them in exactly the order the source delivered them (the delivered
chunk `bs` of the single `read_vectored` call). -/
theorem c2_fill_ok_appends_bytes (r : BufReader) (hWF : r.buf.WF)
    (hnf : r.buf.isFull = false) (n : Nat) (r' : BufReader)
    (h : tryFillBuf r = (Except.ok n, r')) :
    r'.buf.len = r.buf.len + n
      ∧ ∃ bs, bs.length = n
          ∧ srcRead r.src (r.buf.cap - r.buf.len) = (Except.ok bs, r'.src)
          ∧ r'.buf.content = r.buf.content ++ bs := by
  have hf : r.buf.len ≠ r.buf.cap := by
    intro hc
    rw [Deque.isFull, hc] at hnf
    simp at hnf
  obtain ⟨bs, hsr, hn, _, _, hlen, hcontent, _⟩ := tryFillBuf_ok_spec hWF hf h
  exact ⟨hlen, bs, hn.symm, hsr, hcontent⟩

/-- Witness for C2 at `exWrap`: the fill reports 3 bytes, the length grows
from 1 to 4, and 7,8,9 are appended after the old content in source
order. -/
theorem c2_witness :
    exWrapPost.buf.len = exWrap.buf.len + 3
      ∧ ∃ bs, bs.length = 3
          ∧ srcRead exWrap.src (exWrap.buf.cap - exWrap.buf.len)
              = (Except.ok bs, exWrapPost.src)
          ∧ exWrapPost.buf.content = exWrap.buf.content ++ bs :=
  c2_fill_ok_appends_bytes exWrap (by decide) (by decide) 3 exWrapPost rfl

/-- Claim C3: for every well-formed deque state, with `empty_pos = len` and
the two-slice view exposed at full capacity, the computed sub-offsets
`(advance1, advance2)` address sub-regions whose concatenation is exactly
the buffer's free region in logical order (in all three geometric cases),
and whose total size is exactly the free space. -/
theorem c3_advances_cover_free_region (d : Deque) (hWF : d.WF) :
    ((extSlices d).1.drop (fillAdv d).1) ++ ((extSlices d).2.drop (fillAdv d).2)
        = d.rot.drop d.len
      ∧ fillRoom d = d.cap - d.len := by
  refine ⟨?_, fillRoom_of_WF d hWF⟩
  obtain ⟨hs, hlen, hh0⟩ := hWF
  have hh : d.head ≤ d.cap := by rcases hh0 with h' | h' <;> omega
  rw [extSlices_eq d hs hh, fillAdv_eq d hs hh, Deque.rot]
  have hd1 : (d.storage.drop d.head).length = d.cap - d.head := by
    rw [List.length_drop, hs]
  have hd2 : (d.storage.take d.head).length = d.head := by simp [hs]; omega
  unfold advances
  split_ifs with h1 h2
  · show (d.storage.drop d.head).drop d.len ++ (d.storage.take d.head).drop 0
        = (d.storage.drop d.head ++ d.storage.take d.head).drop d.len
    rw [List.drop_append_eq_append_drop, hd1]
    congr 2
    omega
  · show (d.storage.drop d.head).drop (d.cap - d.head)
          ++ (d.storage.take d.head).drop (d.len - (d.cap - d.head))
        = (d.storage.drop d.head ++ d.storage.take d.head).drop d.len
    rw [List.drop_append_eq_append_drop, hd1,
      List.drop_eq_nil_of_le (by omega : (d.storage.drop d.head).length ≤ d.cap - d.head),
      List.drop_eq_nil_of_le (by omega : (d.storage.drop d.head).length ≤ d.len)]
  · show (d.storage.drop d.head).drop (d.cap - d.head)
          ++ (d.storage.take d.head).drop d.head
        = (d.storage.drop d.head ++ d.storage.take d.head).drop d.len
    rw [List.drop_eq_nil_of_le (by omega : (d.storage.drop d.head).length ≤ d.cap - d.head),
      List.drop_eq_nil_of_le (by omega : (d.storage.take d.head).length ≤ d.head),
      List.drop_eq_nil_of_le
        (by rw [List.length_append]; omega
          : (d.storage.drop d.head ++ d.storage.take d.head).length ≤ d.len)]
    rfl

/-- Witness for C3 at the wrapped deque of `exWrap` (head 2, len 1,
capacity 4): the two addressed sub-regions are exactly the free region and
their total size is 3. -/
theorem c3_witness :
    ((extSlices exWrap.buf).1.drop (fillAdv exWrap.buf).1)
        ++ ((extSlices exWrap.buf).2.drop (fillAdv exWrap.buf).2)
        = exWrap.buf.rot.drop exWrap.buf.len
      ∧ fillRoom exWrap.buf = exWrap.buf.cap - exWrap.buf.len :=
  c3_advances_cover_free_region exWrap.buf (by decide)

/-- Claim C4: whenever the buffer is full, `try_fill_buf` returns `Ok(0)`
without touching the source or the buffer (the state is unchanged, so this
holds for arbitrarily many repeated calls). -/
theorem c4_full_fill_is_noop (r : BufReader) (h : r.buf.isFull = true) :
    tryFillBuf r = (Except.ok 0, r) ∧ ∀ k, fillIter k r = r := by
  have hlen : r.buf.len = r.buf.cap := by
    simpa [Deque.isFull] using h
  have h1 := tryFillBuf_full r hlen
  refine ⟨h1, ?_⟩
  intro k
  induction k with
  | zero => rfl
  | succ m ih =>
      show fillIter m (tryFillBuf r).2 = r
      rw [h1]
      exact ih

/-- Witness for C4 at `exFull`: the full buffer makes the fill a no-op,
also under three repeated calls. -/
theorem c4_witness :
    tryFillBuf exFull = (Except.ok 0, exFull) ∧ ∀ k, fillIter k exFull = exFull :=
  c4_full_fill_is_noop exFull (by decide)

/-- Claim C8: for every well-formed adapter state with occupied length `L`
and every `n ≤ L`, `consume n` removes exactly the first `n` bytes of the
logical content (remaining content is the old content with its first `n`
bytes dropped), the occupied length becomes `L - n`, and the underlying
source is untouched. -/
theorem c8_consume_drops_front (r : BufReader) (n : Nat) (hWF : r.buf.WF)
    (hn : n ≤ r.buf.len) :
    (consume r n).buf.content = r.buf.content.drop n
      ∧ (consume r n).buf.len = r.buf.len - n
      ∧ (consume r n).src = r.src :=
  ⟨drain_content r.buf hWF n hn, rfl, rfl⟩

/-- Witness for C8 at `exDrain` (wrapped content 12,13,10), consuming 2:
content becomes 10, the length 1, and the source is untouched. -/
theorem c8_witness :
    (consume exDrain 2).buf.content = exDrain.buf.content.drop 2
      ∧ (consume exDrain 2).buf.len = exDrain.buf.len - 2
      ∧ (consume exDrain 2).src = exDrain.src :=
  c8_consume_drops_front exDrain 2 (by decide) (by decide)

/-- Claim C9 (implicit): whenever `try_fill_buf` returns an error (the
single `read_vectored` call failed, reporting no transferred-byte count),
the guard's drop restores the recorded pre-fill length and the buffer's
occupied length and content are exactly what they were before the call: a
failed fill is atomic with respect to observable buffer state. -/
theorem c9_failed_fill_atomic (r : BufReader) (e : Nat) (r' : BufReader)
    (h : tryFillBuf r = (Except.error e, r')) :
    r'.buf = r.buf ∧ r'.buf.content = r.buf.content ∧ r'.buf.len = r.buf.len := by
  have hb := (tryFillBuf_err h).1
  exact ⟨hb, by rw [hb], by rw [hb]⟩

/-- Witness for C9 at `exErr`: the failing fill returns error 42 and leaves
the deque exactly as it was. -/
theorem c9_witness :
    exErrPost.buf = exErr.buf ∧ exErrPost.buf.content = exErr.buf.content
      ∧ exErrPost.buf.len = exErr.buf.len :=
  c9_failed_fill_atomic exErr 42 exErrPost rfl

lemma fillBuf_err_spec {r : BufReader} {e : Nat} {r' : BufReader}
    (h : fillBuf r = (Except.error e, r')) :
    tryFillBuf r = (Except.error e, r') ∧ r.buf.len = 0 := by
  by_cases hz : r.buf.len = 0
  · rw [fillBuf_empty r hz] at h
    rcases htf : tryFillBuf r with ⟨res, r''⟩
    rw [htf] at h
    cases res with
    | error e2 =>
        simp only [Prod.mk.injEq, Except.error.injEq] at h
        exact ⟨by rw [h.1, h.2], hz⟩
    | ok n => simp at h
  · rw [fillBuf_nonempty r hz] at h
    simp at h

lemma tryFillBuf_WF (r : BufReader) (hWF : r.buf.WF) :
    (tryFillBuf r).2.buf.WF := by
  rcases hres : tryFillBuf r with ⟨res, r'⟩
  cases res with
  | error e =>
      have hb := (tryFillBuf_err hres).1
      show r'.buf.WF
      rw [hb]
      exact hWF
  | ok n =>
      show r'.buf.WF
      by_cases hf : r.buf.len = r.buf.cap
      · have h1 := tryFillBuf_full r hf
        rw [hres] at h1
        simp only [Prod.mk.injEq, Except.ok.injEq] at h1
        rw [h1.2]
        exact hWF
      · exact (tryFillBuf_ok_spec hWF hf hres).choose_spec.2.2.2.2.2.2

lemma fillBuf_WF (r : BufReader) (hWF : r.buf.WF) :
    (fillBuf r).2.buf.WF := by
  rcases hres : fillBuf r with ⟨res, r'⟩
  cases res with
  | error e =>
      have h1 := (fillBuf_err_spec hres).1
      have hb := (tryFillBuf_err h1).1
      show r'.buf.WF
      rw [hb]
      exact hWF
  | ok v =>
      show r'.buf.WF
      exact (fillBuf_ok_spec hWF hres).2.1

lemma min_take_le_len {r' : BufReader} (hWF' : r'.buf.WF) (dstLen : Nat) :
    min (r'.buf.asSlices.1.length) dstLen ≤ r'.buf.len := by
  rw [asSlices_fst_length r'.buf hWF']
  omega

lemma bread_WF (r : BufReader) (dstLen : Nat) (hWF : r.buf.WF) :
    (bread r dstLen).2.buf.WF := by
  rcases hres : fillBuf r with ⟨res, r'⟩
  cases res with
  | error e =>
      have : (bread r dstLen).2 = r' := by simp [bread, hres]
      rw [this]
      have h1 := (fillBuf_err_spec hres).1
      have hb := (tryFillBuf_err h1).1
      rw [hb]
      exact hWF
  | ok v =>
      have hspec := fillBuf_ok_spec hWF hres
      have : (bread r dstLen).2 = consume r' (min v.length dstLen) := by
        simp [bread, hres]
      rw [this]
      apply drain_WF r'.buf hspec.2.1
      rw [hspec.1]
      exact min_take_le_len hspec.2.1 dstLen

/-- A concrete adapter state with an empty buffer whose only source event is
an error: `fill_buf` (Peek) propagates the error instead of returning a
view. -/
def exPeekErr : BufReader := ⟨[Event.ioerr 7], ⟨1, [0], 0, 0⟩⟩

/-- The state `exPeekErr` reaches after the failing Peek. -/
def exPeekErrPost : BufReader := ⟨[], ⟨1, [0], 0, 0⟩⟩

/-- Counterexample to claim C6 as stated: at `exPeekErr` (empty buffer,
erroring source) one `fill_buf` call returns the error, not a view of the
buffer's front slice. -/
theorem c6_counterexample :
    (fillBuf exPeekErr).1 = Except.error 7
      ∧ (fillBuf exPeekErr).1 ≠ Except.ok ((fillBuf exPeekErr).2.buf.asSlices.1) :=
  ⟨rfl, fun h => nomatch h⟩

/-- Claim C6 (amended): one `fill_buf` (Peek) call attempts at most one
`try_fill_buf` (Fill), and attempts it only when the internal buffer is
empty; when the buffer is non-empty it performs no read from the source and
returns the current front contiguous slice with the state unchanged; when
the buffer is empty its entire effect is that of the single `try_fill_buf`
call — if that fill fails, the error is propagated to the caller instead of
a view, and otherwise the new front contiguous slice (possibly empty on
end-of-source) is returned.  There is never an internal retry loop. -/
theorem c6_peek_single_fill (r : BufReader) :
    (r.buf.len ≠ 0 → fillBuf r = (Except.ok r.buf.asSlices.1, r))
    ∧ (r.buf.len = 0 →
        (∀ e r', tryFillBuf r = (Except.error e, r') →
          fillBuf r = (Except.error e, r'))
        ∧ (∀ n r', tryFillBuf r = (Except.ok n, r') →
          fillBuf r = (Except.ok r'.buf.asSlices.1, r'))) := by
  refine ⟨fillBuf_nonempty r, fun hz => ⟨?_, ?_⟩⟩
  · intro e r' h
    rw [fillBuf_empty r hz, h]
  · intro n r' h
    rw [fillBuf_empty r hz, h]

/-- Witness for C6 (amended): at `exDrain` (non-empty buffer) Peek returns
the front slice without touching the source; at `exPeekErr` (empty buffer,
erroring source) Peek propagates the single fill's error. -/
theorem c6_witness :
    fillBuf exDrain = (Except.ok exDrain.buf.asSlices.1, exDrain)
      ∧ fillBuf exPeekErr = (Except.error 7, exPeekErrPost) :=
  ⟨(c6_peek_single_fill exDrain).1 (by decide),
   ((c6_peek_single_fill exPeekErr).2 rfl).1 7 exPeekErrPost rfl⟩

/-- Claim C7: `read` first invokes Peek (`fill_buf`) — which fills only if
the internal buffer is empty, otherwise leaves the state unchanged — copies
as many bytes as fit into the destination from the returned front slice,
marks exactly that many bytes consumed, returns the copied bytes, and
propagates any error from Peek. -/
theorem c7_read_via_peek_copy_consume (r : BufReader) (dstLen : Nat)
    (hWF : r.buf.WF) :
    (∀ e r', fillBuf r = (Except.error e, r') →
        bread r dstLen = (Except.error e, r'))
    ∧ (∀ v r', fillBuf r = (Except.ok v, r') →
        bread r dstLen
            = (Except.ok (v.take dstLen), consume r' (min v.length dstLen))
          ∧ v = r'.buf.asSlices.1
          ∧ (r.buf.len ≠ 0 → r' = r)
          ∧ (consume r' (min v.length dstLen)).buf.content
              = r'.buf.content.drop (min v.length dstLen)) := by
  constructor
  · intro e r' h
    simp [bread, h]
  · intro v r' h
    have hspec := fillBuf_ok_spec hWF h
    refine ⟨by simp [bread, h], hspec.1, hspec.2.2.1, ?_⟩
    show (r'.buf.drain (min v.length dstLen)).content
        = r'.buf.content.drop (min v.length dstLen)
    apply drain_content r'.buf hspec.2.1
    rw [hspec.1]
    exact min_take_le_len hspec.2.1 dstLen

/-- Witness for C7 at `exDrain` with a 2-byte destination: Peek returns the
front slice 12,13 without filling, `read` copies both bytes and consumes
exactly 2. -/
theorem c7_witness :
    bread exDrain 2
        = (Except.ok (([12, 13] : List Byte).take 2),
           consume exDrain (min ([12, 13] : List Byte).length 2))
      ∧ ([12, 13] : List Byte) = exDrain.buf.asSlices.1
      ∧ (exDrain.buf.len ≠ 0 → exDrain = exDrain)
      ∧ (consume exDrain (min ([12, 13] : List Byte).length 2)).buf.content
          = exDrain.buf.content.drop (min ([12, 13] : List Byte).length 2) :=
  (c7_read_via_peek_copy_consume exDrain 2 (by decide)).2 [12, 13] exDrain rfl

/-- A concrete adapter state whose source delivers two bytes and then
fails. -/
def exC1 : BufReader :=
  ⟨[Event.chunk [7, 8], Event.ioerr 9], ⟨4, [10, 11, 12, 13], 2, 1⟩⟩

/-- Claim C1: if the underlying reader transfers `k` bytes and then fails —
which, under the `std::io::Read` contract (an erroring call transfers no
bytes), means one `read_vectored` call reports `Ok(k)` and the next one
reports the error — then filling leaves the occupied length increased by
exactly `k` (not 0, not capacity, since `k ≠ 0` and the buffer is not
filled to capacity here), the `k` bytes readable in order right after the
previous content, and the error is still returned to the caller by the
fill that encounters it, with those bytes still present. -/
theorem c1_transfer_then_fail (r : BufReader) (hWF : r.buf.WF)
    (bs : List Byte) (e : Nat) (rest : List Event)
    (hsrc : r.src = Event.chunk bs :: Event.ioerr e :: rest)
    (hbs : bs ≠ []) (hk : bs.length < r.buf.cap - r.buf.len) :
    ∃ r₁ r₂,
      tryFillBuf r = (Except.ok bs.length, r₁)
      ∧ r₁.buf.len = r.buf.len + bs.length
      ∧ r₁.buf.content = r.buf.content ++ bs
      ∧ tryFillBuf r₁ = (Except.error e, r₂)
      ∧ r₂.buf.len = r.buf.len + bs.length
      ∧ r₂.buf.content = r.buf.content ++ bs
      ∧ bs.length ≠ 0 := by
  have hf : r.buf.len ≠ r.buf.cap := by omega
  have hlt : r.buf.len < r.buf.cap := by omega
  have hble : bs.length ≤ r.buf.cap - r.buf.len := le_of_lt hk
  have hsr : srcRead r.src (r.buf.cap - r.buf.len)
      = (Except.ok bs, Event.ioerr e :: rest) := by
    rw [hsrc]
    simp [srcRead, List.take_of_length_le hble, hble]
  have heq := tryFillBuf_ok_eq hWF hf hsr
  have hc1 : (Deque.content ⟨r.buf.cap, fillStorage r.buf bs, r.buf.head,
      r.buf.len + bs.length⟩) = r.buf.content ++ bs :=
    fill_content r.buf hWF hlt bs hble
  refine ⟨⟨Event.ioerr e :: rest,
            ⟨r.buf.cap, fillStorage r.buf bs, r.buf.head, r.buf.len + bs.length⟩⟩,
          ⟨rest,
            ⟨r.buf.cap, fillStorage r.buf bs, r.buf.head, r.buf.len + bs.length⟩⟩,
          heq, rfl, hc1, ?_, rfl, hc1,
          fun h0 => hbs (List.eq_nil_of_length_eq_zero h0)⟩
  rw [tryFillBuf_not_full_aux _ (by show r.buf.len + bs.length ≠ r.buf.cap; omega)]
  rfl

/-- Witness for C1 at `exC1`: the source hands over 7,8 and then fails with
error 9; after the first fill the two bytes sit after the old content, and
the second fill returns the error with the bytes still present. -/
theorem c1_witness :
    ∃ r₁ r₂,
      tryFillBuf exC1 = (Except.ok 2, r₁)
      ∧ r₁.buf.len = exC1.buf.len + 2
      ∧ r₁.buf.content = exC1.buf.content ++ [7, 8]
      ∧ tryFillBuf r₁ = (Except.error 9, r₂)
      ∧ r₂.buf.len = exC1.buf.len + 2
      ∧ r₂.buf.content = exC1.buf.content ++ [7, 8]
      ∧ (2 : Nat) ≠ 0 :=
  c1_transfer_then_fail exC1 (by decide) [7, 8] 9 [] rfl (by decide) (by decide)

/-- Claim C10 (implicit): at every entry to and exit from the public
operations (`try_fill_buf`, `fill_buf`, `read`, `consume`; the accessors do
not touch the state), the buffer's logical length is at most its capacity
and equals the number of buffered content bytes; the transient
length-equals-capacity state inside `try_fill_buf` is not observable on any
exit path, error propagation included. -/
theorem c10_observable_len_invariant (r : BufReader) (dstLen n : Nat)
    (hWF : r.buf.WF) (hn : n ≤ r.buf.len) :
    (r.buf.len ≤ r.buf.cap ∧ r.buf.content.length = r.buf.len)
    ∧ ((tryFillBuf r).2.buf.len ≤ (tryFillBuf r).2.buf.cap
        ∧ (tryFillBuf r).2.buf.content.length = (tryFillBuf r).2.buf.len)
    ∧ ((fillBuf r).2.buf.len ≤ (fillBuf r).2.buf.cap
        ∧ (fillBuf r).2.buf.content.length = (fillBuf r).2.buf.len)
    ∧ ((bread r dstLen).2.buf.len ≤ (bread r dstLen).2.buf.cap
        ∧ (bread r dstLen).2.buf.content.length = (bread r dstLen).2.buf.len)
    ∧ ((consume r n).buf.len ≤ (consume r n).buf.cap
        ∧ (consume r n).buf.content.length = (consume r n).buf.len) := by
  have h1 := tryFillBuf_WF r hWF
  have h2 := fillBuf_WF r hWF
  have h3 := bread_WF r dstLen hWF
  have h4 := drain_WF r.buf hWF n hn
  exact ⟨⟨hWF.2.1, content_length r.buf hWF⟩,
         ⟨h1.2.1, content_length _ h1⟩,
         ⟨h2.2.1, content_length _ h2⟩,
         ⟨h3.2.1, content_length _ h3⟩,
         ⟨h4.2.1, content_length _ h4⟩⟩

/-- Witness for C10 at `exWrap` with destination size 1 and consume count 1:
all five entry/exit states satisfy the length invariant. -/
theorem c10_witness :
    (exWrap.buf.len ≤ exWrap.buf.cap
        ∧ exWrap.buf.content.length = exWrap.buf.len)
    ∧ ((tryFillBuf exWrap).2.buf.len ≤ (tryFillBuf exWrap).2.buf.cap
        ∧ (tryFillBuf exWrap).2.buf.content.length = (tryFillBuf exWrap).2.buf.len)
    ∧ ((fillBuf exWrap).2.buf.len ≤ (fillBuf exWrap).2.buf.cap
        ∧ (fillBuf exWrap).2.buf.content.length = (fillBuf exWrap).2.buf.len)
    ∧ ((bread exWrap 1).2.buf.len ≤ (bread exWrap 1).2.buf.cap
        ∧ (bread exWrap 1).2.buf.content.length = (bread exWrap 1).2.buf.len)
    ∧ ((consume exWrap 1).buf.len ≤ (consume exWrap 1).buf.cap
        ∧ (consume exWrap 1).buf.content.length = (consume exWrap 1).buf.len) :=
  c10_observable_len_invariant exWrap 1 1 (by decide) (by decide)

lemma tryFillBuf_cap (r : BufReader) : (tryFillBuf r).2.buf.cap = r.buf.cap := by
  unfold tryFillBuf
  split
  · rfl
  · rcases hsr : srcRead r.src (fillRoom r.buf) with ⟨res, src'⟩
    cases res <;> rfl

lemma fillBuf_step (r : BufReader) (hWF : r.buf.WF) (hcap : 0 < r.buf.cap)
    (hgood : goodSrc r.src = true) :
    ∃ v r', fillBuf r = (Except.ok v, r')
      ∧ v = r'.buf.asSlices.1 ∧ r'.buf.WF ∧ r'.buf.cap = r.buf.cap
      ∧ goodSrc r'.src = true
      ∧ absStream r' = absStream r
      ∧ (absStream r ≠ [] → v ≠ []) := by
  by_cases hz : r.buf.len = 0
  case neg =>
    refine ⟨r.buf.asSlices.1, r, fillBuf_nonempty r hz, rfl, hWF, rfl, hgood, rfl, ?_⟩
    intro _
    exact asSlices_fst_ne_nil r.buf hWF hz
  case pos =>
    have hf : r.buf.len ≠ r.buf.cap := by omega
    obtain ⟨bs, src', hsr⟩ := srcRead_good_ok hgood (r.buf.cap - r.buf.len)
    have htf := tryFillBuf_ok_eq hWF hf hsr
    have hlt : r.buf.len < r.buf.cap := by omega
    have hble := srcRead_ok_le hsr
    have hWF' := fill_WF r.buf hWF hlt bs hble
    have hcontent := fill_content r.buf hWF hlt bs hble
    have hfb : fillBuf r
        = (Except.ok (Deque.asSlices ⟨r.buf.cap, fillStorage r.buf bs,
              r.buf.head, r.buf.len + bs.length⟩).1,
           ⟨src', ⟨r.buf.cap, fillStorage r.buf bs, r.buf.head,
              r.buf.len + bs.length⟩⟩) := by
      rw [fillBuf_empty r hz, htf]
    refine ⟨_, _, hfb, rfl, hWF', rfl, srcRead_ok_good hgood hsr, ?_, ?_⟩
    · show Deque.content _ ++ srcFlat src' = _
      rw [hcontent, List.append_assoc, srcRead_ok_flat hsr]
      rfl
    · intro habs
      have hc0 : r.buf.content = [] :=
        List.eq_nil_of_length_eq_zero (by rw [content_length r.buf hWF, hz])
      have hsrcne : r.src ≠ [] := by
        intro hnil
        apply habs
        show r.buf.content ++ srcFlat r.src = []
        rw [hc0, hnil]
        rfl
      have hbsne : bs ≠ [] := srcRead_ok_ne_nil hgood hsrcne (by omega) hsr
      apply asSlices_fst_ne_nil _ hWF'
      show r.buf.len + bs.length ≠ 0
      have := List.length_pos.mpr hbsne
      omega

lemma bread_step (r : BufReader) (d : Nat) (hWF : r.buf.WF)
    (hcap : 0 < r.buf.cap) (hgood : goodSrc r.src = true) (hd : 1 ≤ d) :
    ∃ n r', bread r d = (Except.ok ((absStream r).take n), r')
      ∧ r'.buf.WF ∧ r'.buf.cap = r.buf.cap ∧ goodSrc r'.src = true
      ∧ absStream r' = (absStream r).drop n
      ∧ (absStream r = [] → n = 0)
      ∧ (absStream r ≠ [] → 1 ≤ n) := by
  obtain ⟨v, r', hfb, hv, hWF', hcap', hgood', habs', hne⟩ :=
    fillBuf_step r hWF hcap hgood
  have hvc : v = r'.buf.content.take v.length := by
    have h0 := asSlices_fst_take r'.buf
    rw [← hv] at h0
    exact h0
  have hvlen : v.length ≤ r'.buf.content.length := by
    have := congrArg List.length hvc
    simp at this
    omega
  have hcl : r'.buf.content.length = r'.buf.len := content_length r'.buf hWF'
  refine ⟨min v.length d, { src := r'.src, buf := r'.buf.drain (min v.length d) },
    ?_, ?_, ?_, hgood', ?_, ?_, ?_⟩
  · have hb : bread r d = (Except.ok (v.take d), consume r' (min v.length d)) := by
      simp [bread, hfb]
    rw [hb]
    have htake : v.take d = (absStream r).take (min v.length d) := by
      rw [← habs']
      show v.take d = (r'.buf.content ++ srcFlat r'.src).take (min v.length d)
      rw [List.take_append_of_le_length (by omega)]
      conv_lhs => rw [hvc]
      rw [List.take_take, Nat.min_comm]
    rw [htake]
    rfl
  · exact drain_WF r'.buf hWF' _ (by omega)
  · show (r'.buf.drain (min v.length d)).cap = r.buf.cap
    rw [← hcap']
    rfl
  · show (r'.buf.drain (min v.length d)).content ++ srcFlat r'.src = _
    rw [drain_content r'.buf hWF' _ (by omega), ← habs']
    show _ = (r'.buf.content ++ srcFlat r'.src).drop (min v.length d)
    rw [List.drop_append_of_le_length (by omega)]
  · intro h0
    rw [← habs', absStream] at h0
    have hc0 := (List.append_eq_nil.mp h0).1
    have : v.length = 0 := by
      have := congrArg List.length hvc
      rw [hc0] at this
      simpa using this
    omega
  · intro hne0
    have hvne := hne hne0
    have := List.length_pos.mpr hvne
    omega

lemma readAll_eq (sizes : Nat → Nat) (hsizes : ∀ i, 1 ≤ sizes i) :
    ∀ fuel r i, r.buf.WF → 0 < r.buf.cap → goodSrc r.src = true →
      (absStream r).length < fuel →
      (readAll sizes fuel i r).1 = absStream r := by
  intro fuel
  induction fuel with
  | zero => intro r i _ _ _ h; omega
  | succ m ih =>
      intro r i hWF hcap hgood hfuel
      obtain ⟨n, r', hbread, hWF', hcap', hgood', habs, hzero, hpos⟩ :=
        bread_step r (sizes i) hWF hcap hgood (hsizes i)
      by_cases habsnil : absStream r = []
      · have hn0 := hzero habsnil
        subst hn0
        rw [habsnil] at hbread ⊢
        simp only [List.take_zero] at hbread
        show (match bread r (sizes i) with
          | (Except.error _, r') => (([] : List Byte), r')
          | (Except.ok [], r') => ([], r')
          | (Except.ok (b :: bs), r') =>
              (b :: (bs ++ (readAll sizes m (i + 1) r').1),
               (readAll sizes m (i + 1) r').2)).1 = []
        rw [hbread]
      · obtain ⟨n', hn'⟩ : ∃ n', n = n' + 1 := by
          have := hpos habsnil
          exact ⟨n - 1, by omega⟩
        obtain ⟨a, as, habseq⟩ : ∃ a as, absStream r = a :: as := by
          rcases hab : absStream r with _ | ⟨a, as⟩
          · exact absurd hab habsnil
          · exact ⟨a, as, rfl⟩
        rw [habseq, hn', List.take_succ_cons] at hbread
        show (match bread r (sizes i) with
          | (Except.error _, r') => (([] : List Byte), r')
          | (Except.ok [], r') => ([], r')
          | (Except.ok (b :: bs), r') =>
              (b :: (bs ++ (readAll sizes m (i + 1) r').1),
               (readAll sizes m (i + 1) r').2)).1 = absStream r
        rw [hbread, habseq]
        show a :: (as.take n' ++ (readAll sizes m (i + 1) r').1) = a :: as
        have hih : (readAll sizes m (i + 1) r').1 = absStream r' := by
          apply ih r' (i + 1) hWF' (by omega) hgood'
          rw [habs, habseq]
          have := congrArg List.length habseq
          simp at this ⊢
          omega
        rw [hih, habs, habseq, hn', List.drop_succ_cons, List.take_append_drop]

/-- All bytes of a chunked source, for the round-trip statement. -/
lemma srcFlat_map_chunk (chunks : List (List Byte)) :
    srcFlat (chunks.map Event.chunk) = chunks.flatten := by
  induction chunks with
  | nil => rfl
  | cons c cs ih => simp [srcFlat, ih, List.flatten]

lemma goodSrc_map_chunk (chunks : List (List Byte))
    (h : ∀ c ∈ chunks, c ≠ []) :
    goodSrc (chunks.map Event.chunk) = true := by
  induction chunks with
  | nil => rfl
  | cons c cs ih =>
      simp only [List.map_cons, goodSrc, Bool.and_eq_true, Bool.not_eq_true']
      refine ⟨?_, ih fun x hx => h x (List.mem_cons_of_mem c hx)⟩
      have hc := h c (List.mem_cons_self c cs)
      simp [List.isEmpty_iff, hc]

lemma new_WF (cap : Nat) (src : List Event) :
    (BufReader.new cap src).buf.WF := by
  refine ⟨by simp [BufReader.new], by simp [BufReader.new], Or.inr rfl⟩

lemma new_absStream (cap : Nat) (chunks : List (List Byte)) :
    absStream (BufReader.new cap (chunks.map Event.chunk)) = chunks.flatten := by
  have hc : Deque.content (BufReader.new cap (chunks.map Event.chunk)).buf = [] := by
    simp [BufReader.new, Deque.content, Deque.asSlices]
  show Deque.content _ ++ srcFlat (chunks.map Event.chunk) = _
  rw [hc, List.nil_append, srcFlat_map_chunk]

/-- Claim C5: for every byte sequence produced by the underlying source (as
any sequence of nonempty delivered chunks) and every sequence of positive
read-chunk sizes chosen by the caller, reading a freshly wrapped adapter of
any positive capacity until it reports zero bytes reproduces the source's
byte sequence exactly, in order, regardless of where the internal buffer's
wrap-around points fall. -/
theorem c5_round_trip (cap : Nat) (hcap : 0 < cap)
    (chunks : List (List Byte)) (hne : ∀ c ∈ chunks, c ≠ [])
    (sizes : Nat → Nat) (hsizes : ∀ i, 1 ≤ sizes i)
    (fuel : Nat) (hfuel : chunks.flatten.length < fuel) :
    (readAll sizes fuel 0 (BufReader.new cap (chunks.map Event.chunk))).1
      = chunks.flatten := by
  have h1 := new_absStream cap chunks
  rw [← h1]
  exact readAll_eq sizes hsizes fuel _ 0 (new_WF cap _) hcap
    (goodSrc_map_chunk chunks hne) (by rw [h1]; exact hfuel)

/-- Witness for C5: a capacity-2 adapter over the single chunk 1,2,3 (which
forces wrap-around), read with 1-byte destinations, reproduces 1,2,3. -/
theorem c5_witness :
    (readAll (fun _ => 1) 5 0
        (BufReader.new 2 ([[1, 2, 3]].map Event.chunk))).1
      = ([[1, 2, 3]] : List (List Byte)).flatten :=
  c5_round_trip 2 (by decide) [[1, 2, 3]] (by decide) (fun _ => 1)
    (fun _ => le_refl 1) 5 (by decide)

end Arraydeque
